import Mathlib

/-!
Verification development for the whyinstall dependency-graph resolver and
size-aggregation engine.  The TypeScript sources are shallowly embedded:
filesystem state becomes an explicit value, JS objects become association
lists preserving insertion order, and fallible operations return `Option`
or `Except`.
-/

namespace Whyinstall

/-- A filesystem path, as the list of its segments below the root directory
(the JS code manipulates absolute POSIX path strings; `[]` is `/`). -/
abbrev FsPath := List String

/-- Parsed `package.json` manifest (interface `PackageJson` in src/analyzer.ts
and src/fileFinder.ts).  The four dependency maps are modelled by their key
lists in JS object insertion order; version-range values are never consulted
by the code under verification. -/
structure PackageJson where
  name : Option String
  version : Option String
  description : Option String
  dependencies : List String
  devDependencies : List String
  peerDependencies : List String
  optionalDependencies : List String
deriving Repr, DecidableEq

/-- Dependency category, the `'prod' | 'dev' | 'peer' | 'optional'` literal type. -/
inductive DepType where
  | prod
  | dev
  | peer
  | optional
deriving Repr, DecidableEq

/-- String rendering of a `DepType`, as the JS string literal. -/
def depTypeToString : DepType → String
  | DepType.prod => "prod"
  | DepType.dev => "dev"
  | DepType.peer => "peer"
  | DepType.optional => "optional"

/-- JS object assignment `r[k] = v`: overwrite in place when the key exists
(keeping its original position), otherwise append. -/
def recordSet (r : List (String × DepType)) (k : String) (v : DepType) :
    List (String × DepType) :=
  if r.any (fun p => p.1 = k) then
    r.map (fun p => if p.1 = k then (k, v) else p)
  else
    r ++ [(k, v)]

/-- One `for (const name of Object.keys(m)) deps[name] = v` loop. -/
def recordSetAll (r : List (String × DepType)) (ks : List String) (v : DepType) :
    List (String × DepType) :=
  ks.foldl (fun acc n => recordSet acc n v) r

/-- Embedding of `getAllDependencies` from src/analyzer.ts: flatten the four dependency
maps into one record, in the order production, development, peer, optional,
each assignment overwriting the previous category for the same name. -/
def getAllDependencies (pkg : PackageJson) : List (String × DepType) :=
  recordSetAll
    (recordSetAll
      (recordSetAll
        (recordSetAll [] pkg.dependencies DepType.prod)
        pkg.devDependencies DepType.dev)
      pkg.peerDependencies DepType.peer)
    pkg.optionalDependencies DepType.optional

/-- First-match association-list lookup (JS record field access `r[n]`). -/
def lookupDep : List (String × DepType) → String → Option DepType
  | [], _ => none
  | (k, v) :: rest, n => if k = n then some v else lookupDep rest n

/-- The manifest files visible to the analyzer: a finite map from
`package.json` file paths to their parsed contents.  A path absent from
`files` is a missing or unparseable manifest (`readPackageJson` returns
`null` for both). -/
structure ManifestFS where
  files : List (FsPath × PackageJson)

/-- Embedding of `readPackageJson` from src/analyzer.ts: `null` (here `none`) on a missing
or malformed file. -/
def ManifestFS.read (fs : ManifestFS) (p : FsPath) : Option PackageJson :=
  match fs.files.find? (fun pr => pr.1 == p) with
  | some pr => some pr.2
  | none => none

/-- The `existsSync` check on a manifest path. -/
def ManifestFS.existsSync (fs : ManifestFS) (p : FsPath) : Bool :=
  (fs.read p).isSome

/-- The `possiblePaths` check of `findPackageInNodeModules` at one base
directory: `basePath/node_modules/name/package.json`, then
`basePath/name/package.json`. -/
def checkPackageDir (fs : ManifestFS) (packageName : String) (basePath : FsPath) :
    Option FsPath :=
  let p1 := basePath ++ ["node_modules", packageName, "package.json"]
  let p2 := basePath ++ [packageName, "package.json"]
  if fs.existsSync p1 then some p1
  else if fs.existsSync p2 then some p2
  else none

/-- Climb of `findPackageInNodeModules`, walking the base path's segments
from deepest to shallowest; the argument is the base path reversed, so
dropping the deepest directory is structural.  Stopping after a single
segment models the JS guard `parent !== basePath && parent !== '/'`, which
never climbs into `/` itself. -/
def findPackageInNodeModulesRev (fs : ManifestFS) (packageName : String) :
    List String → Option FsPath
  | [] => checkPackageDir fs packageName []
  | [x] => checkPackageDir fs packageName [x]
  | x :: y :: tl =>
    match checkPackageDir fs packageName (x :: y :: tl).reverse with
    | some p => some p
    | none => findPackageInNodeModulesRev fs packageName (y :: tl)

/-- Embedding of `findPackageInNodeModules` from src/analyzer.ts: check
`basePath/node_modules/name/package.json` and `basePath/name/package.json`,
then recurse on the parent directory. -/
def findPackageInNodeModules (fs : ManifestFS) (packageName : String)
    (basePath : FsPath) : Option FsPath :=
  findPackageInNodeModulesRev fs packageName basePath.reverse

/-- Embedding of `DependencyPath` from src/types.ts. -/
structure DependencyPath where
  chain : List String
  type : DepType
  packageJsonPath : FsPath
deriving Repr, DecidableEq

/-- Work-queue item of `findDependencyPaths`. -/
structure QueueItem where
  packageName : String
  chain : List String
  packageJsonPath : FsPath
deriving Repr, DecidableEq

/-- Render a path the way the JS code sees it (an absolute POSIX string),
used to build visit keys. -/
def pathToString (p : FsPath) : String :=
  String.intercalate "/" ("" :: p)

/-- The visit key `` `${currentPackageName}:${packageJsonPath}` ``. -/
def visitKeyOf (currentPackageName : String) (p : FsPath) : String :=
  currentPackageName ++ ":" ++ pathToString p

/-- The `for (const [depName, depType] of Object.entries(allDeps))` loop body
of `findDependencyPaths`: emit a completed chain when the edge hits the
target, otherwise locate the dependency's manifest and enqueue it. -/
def processDeps (fs : ManifestFS) (targetPackage : String)
    (currentPackageName : String) (chain : List String) (pkgPath : FsPath) :
    List (String × DepType) → List DependencyPath × List QueueItem
  | [] => ([], [])
  | (depName, depType) :: restDeps =>
    let rest := processDeps fs targetPackage currentPackageName chain pkgPath restDeps
    if depName = targetPackage then
      let newChain :=
        if currentPackageName ≠ "" then
          (if chain.length > 0 then chain ++ [currentPackageName, depName]
           else [currentPackageName, depName])
        else [depName]
      (DependencyPath.mk newChain depType pkgPath :: rest.1, rest.2)
    else
      match findPackageInNodeModules fs depName pkgPath.dropLast with
      | some depPackageJsonPath =>
        let newChain :=
          if currentPackageName ≠ "" then
            (if chain.length > 0 then chain ++ [currentPackageName]
             else [currentPackageName])
          else []
        (rest.1, QueueItem.mk depName newChain depPackageJsonPath :: rest.2)
      | none => rest

/-- All `package.json` paths present in the filesystem. -/
def ManifestFS.pathList (fs : ManifestFS) : List FsPath :=
  fs.files.map (fun pr => pr.1)

/-- Every module name the traversal can ever carry: the empty root name,
every manifest's own name, and every declared dependency name. -/
def ManifestFS.nameList (fs : ManifestFS) : List String :=
  "" :: fs.files.flatMap
    (fun pr => pr.2.name.getD "" :: (getAllDependencies pr.2).map (fun d => d.1))

/-- Every visit key the traversal can ever construct. -/
def allKeys (fs : ManifestFS) : List String :=
  (fs.nameList.flatMap (fun n => fs.pathList.map (fun p => visitKeyOf n p))).dedup

/-- Upper bound on the number of edges of any one manifest. -/
def maxDepCount (fs : ManifestFS) : Nat :=
  fs.files.foldr (fun pr acc => max (getAllDependencies pr.2).length acc) 0

/-- Fuel that provably outlasts the breadth-first traversal: the visited-set
guard admits at most `(allKeys fs).length` expansions, each enqueuing at most
`maxDepCount fs` items. -/
def sufficientFuel (fs : ManifestFS) : Nat :=
  (allKeys fs).length * (maxDepCount fs + 1) + 1

/-- The `while (queue.length > 0)` loop of `findDependencyPaths`, with
explicit fuel; returns the recorded paths together with the final visited
set, or `none` if the fuel runs out mid-loop. -/
def findDependencyPathsAux (fs : ManifestFS) (targetPackage : String)
    (maxDepth : Nat) :
    Nat → List QueueItem → List String → List DependencyPath →
    Option (List DependencyPath × List String)
  | _, [], visited, paths => some (paths, visited)
  | 0, _ :: _, _, _ => none
  | fuel + 1, current :: rest, visited, paths =>
    if current.chain.length > maxDepth then
      findDependencyPathsAux fs targetPackage maxDepth fuel rest visited paths
    else
      match fs.read current.packageJsonPath with
      | none => findDependencyPathsAux fs targetPackage maxDepth fuel rest visited paths
      | some pkg =>
        let currentPackageName :=
          if current.packageName ≠ "" then current.packageName else pkg.name.getD ""
        let visitKey := visitKeyOf currentPackageName current.packageJsonPath
        if visitKey ∈ visited then
          findDependencyPathsAux fs targetPackage maxDepth fuel rest visited paths
        else
          let step := processDeps fs targetPackage currentPackageName
            current.chain current.packageJsonPath (getAllDependencies pkg)
          findDependencyPathsAux fs targetPackage maxDepth fuel
            (rest ++ step.2) (visitKey :: visited) (paths ++ step.1)

/-- Embedding of `findDependencyPaths` from src/analyzer.ts, additionally exposing the
final visited set: a missing root manifest yields an empty result; otherwise
run the breadth-first traversal seeded with the project manifest (empty
chain, empty name). -/
def findDependencyPathsFull (fs : ManifestFS) (targetPackage : String)
    (cwd : FsPath) (maxDepth : Nat) :
    Option (List DependencyPath × List String) :=
  let rootPackageJson := cwd ++ ["package.json"]
  if fs.existsSync rootPackageJson then
    findDependencyPathsAux fs targetPackage maxDepth (sufficientFuel fs)
      [QueueItem.mk "" [] rootPackageJson] [] []
  else some ([], [])

/-- Embedding of `findDependencyPaths` from src/analyzer.ts (result list only). -/
def findDependencyPaths (fs : ManifestFS) (targetPackage : String)
    (cwd : FsPath) (maxDepth : Nat) : Option (List DependencyPath) :=
  (findDependencyPathsFull fs targetPackage cwd maxDepth).map (fun r => r.1)

/-- The composite de-duplication key `` `${path.type}:${path.chain.join('->')}` ``. -/
def pathKey (p : DependencyPath) : String :=
  depTypeToString p.type ++ ":" ++ String.intercalate "->" p.chain

/-- The `paths.filter` de-duplication loop of `analyzePackage`, with the
mutable `pathKeys` set made explicit: keep an element exactly when its key
has not been seen before. -/
def dedupePathsAux (seen : List String) : List DependencyPath → List DependencyPath
  | [] => []
  | p :: rest =>
    if pathKey p ∈ seen then dedupePathsAux seen rest
    else p :: dedupePathsAux (pathKey p :: seen) rest

/-- De-duplicate resolved paths by composite key, keeping first occurrences. -/
def dedupePaths (paths : List DependencyPath) : List DependencyPath :=
  dedupePathsAux [] paths

/-- Climb of the modelled `require.resolve`, on the reversed directory path. -/
def requireResolveRev (fs : ManifestFS) (packageName : String) :
    List String → Option FsPath
  | [] =>
    let candidate := ["node_modules", packageName, "package.json"]
    if fs.existsSync candidate then some candidate else none
  | x :: tl =>
    let candidate := (x :: tl).reverse ++ ["node_modules", packageName, "package.json"]
    if fs.existsSync candidate then some candidate
    else requireResolveRev fs packageName tl

/-- Model of the Node builtin `require.resolve(name + "/package.json",
{paths: [dir]})`: walk `dir` and its ancestor directories looking for
`node_modules/name/package.json` (Node's node_modules resolution). -/
def requireResolvePackageJson (fs : ManifestFS) (packageName : String)
    (dir : FsPath) : Option FsPath :=
  requireResolveRev fs packageName dir.reverse

/-- Embedding of `findPackageJsonPath` from src/analyzer.ts: try `require.resolve`, and on
failure fall back to a direct `cwd/node_modules/name/package.json` check. -/
def findPackageJsonPath (fs : ManifestFS) (packageName : String) (cwd : FsPath) :
    Option FsPath :=
  match requireResolvePackageJson fs packageName cwd with
  | some resolved => some resolved
  | none =>
    let nodeModulesPath := cwd ++ ["node_modules", packageName, "package.json"]
    if fs.existsSync nodeModulesPath then some nodeModulesPath else none

/-- JS `option || default` on strings: the empty string is falsy. -/
def jsStringOr (o : Option String) (d : String) : String :=
  match o with
  | some s => if s = "" then d else s
  | none => d

/-- Embedding of `AnalyzeResult`/`PackageInfo` from src/types.ts, restricted to the fields
the resolution engine computes.  The presentation-only fields `size`,
`sourceFiles` and `impact` (disk walk and regex usage scanner, out of the
core's scope) are not modelled. -/
structure AnalyzeResult where
  name : String
  version : String
  description : Option String
  paths : List DependencyPath
  suggestions : List String
deriving Repr, DecidableEq

/-- Embedding of `analyzePackage` from src/analyzer.ts: throw "not found" when the target
manifest cannot be located, otherwise resolve all dependency paths,
de-duplicate them, and synthesize suggestions. -/
def analyzePackage (fs : ManifestFS) (packageName : String) (cwd : FsPath) :
    Except String AnalyzeResult :=
  let rootPackageJson := cwd ++ ["package.json"]
  match findPackageJsonPath fs packageName cwd with
  | none => Except.error ("Package \"" ++ packageName ++ "\" not found in node_modules")
  | some packageJsonPath =>
    let pkg := fs.read packageJsonPath
    let version := jsStringOr (pkg.bind PackageJson.version) "unknown"
    let description := pkg.bind PackageJson.description
    let resolved := (findDependencyPaths fs packageName cwd 10).getD []
    let paths := dedupePaths resolved
    let suggestions :=
      if paths.length = 0 then
        ["Package \"" ++ packageName ++ "\" is not in dependency tree"]
      else
        let devPaths := paths.filter (fun p => p.type == DepType.dev)
        let peerPaths := paths.filter (fun p => p.type == DepType.peer)
        let devSugg :=
          if devPaths.length > 0 then
            ["Consider removing from devDependencies if not needed for development"]
          else []
        let peerSugg :=
          if peerPaths.length > 0 then
            ["This is a peer dependency - ensure all consumers satisfy the peer requirement"]
          else []
        let directDeps := paths.filter
          (fun p => p.chain.length == 1 && p.packageJsonPath == rootPackageJson)
        let directSugg :=
          if directDeps.length > 0 && paths.length > directDeps.length then
            ["Can be removed from direct dependencies - it's installed transitively"]
          else []
        devSugg ++ peerSugg ++ directSugg
    Except.ok (AnalyzeResult.mk packageName version description paths suggestions)

/-!
The size-map half (src/fileFinder.ts) walks directory trees file by file, so
its filesystem is modelled as a tree of named entries.  A file carries its
byte size and, when it parses as a manifest, its parsed `PackageJson`
(`none` models both non-JSON content and malformed JSON). -/

/-- A node of the on-disk tree: a file or a directory listing. -/
inductive FsNode where
  | file (size : Nat) (manifest : Option PackageJson)
  | dir (entries : List (String × FsNode))

mutual
/-- Resolve a path below a node (`statSync`-style addressing). -/
def FsNode.resolve : FsNode → FsPath → Option FsNode
  | n, [] => some n
  | FsNode.file _ _, _ :: _ => none
  | FsNode.dir entries, s :: rest => resolveEntries entries s rest

/-- Look up a directory entry by name and resolve the remaining path. -/
def resolveEntries : List (String × FsNode) → String → FsPath → Option FsNode
  | [], _, _ => none
  | (name, node) :: es, s, rest =>
    if name = s then FsNode.resolve node rest else resolveEntries es s rest
end

/-- The `existsSync` check on the tree filesystem. -/
def FsNode.existsSync (fs : FsNode) (p : FsPath) : Bool :=
  (fs.resolve p).isSome

/-- Embedding of `readPackageJson` from src/fileFinder.ts: `null` when the path is missing,
is a directory (`readFileSync` throws), or does not parse as a manifest. -/
def FsNode.readPackageJson (fs : FsNode) (p : FsPath) : Option PackageJson :=
  match fs.resolve p with
  | some (FsNode.file _ manifest) => manifest
  | some (FsNode.dir _) => none
  | none => none

/-- Node's `path.extname`: the substring from the last `.` of the name, empty
when there is no `.` or the only `.` is the leading character. -/
def extname (s : String) : String :=
  let cs := s.toList
  if cs.contains '.' then
    let afterRev := cs.reverse.takeWhile (fun c => c ≠ '.')
    let dotIndex := cs.length - afterRev.length - 1
    if dotIndex = 0 then "" else String.mk ('.' :: afterRev.reverse)
  else ""

/-- The `JS_EXTENSIONS` list from src/fileFinder.ts. -/
def JS_EXTENSIONS : List String := [".js", ".mjs", ".cjs"]

/-- The `EXCLUDE_DIRS` list from src/fileFinder.ts. -/
def EXCLUDE_DIRS : List String :=
  ["test", "tests", "__tests__", "docs", "doc", "types", "@types", "typings", ".d.ts"]

/-- ASCII `.toLowerCase()`, computed character by character (the module and
file names under analysis are ASCII). -/
def toLowerString (s : String) : String :=
  String.mk (s.data.map Char.toLower)

/-- The `.startsWith(pre)` test computed over character lists. -/
def startsWithString (s pre : String) : Bool :=
  pre.data.isPrefixOf s.data

/-- The `.endsWith(post)` test computed over character lists. -/
def endsWithString (s post : String) : Bool :=
  post.data.isSuffixOf s.data

/-- Embedding of `shouldExclude` from src/fileFinder.ts. -/
def shouldExclude (name : String) : Bool :=
  let lower := toLowerString name
  EXCLUDE_DIRS.contains lower || endsWithString lower ".d.ts" || startsWithString lower "."

/-- Does a file name carry a bundled-JavaScript extension
(`JS_EXTENSIONS.has(extname(entry).toLowerCase())`)? -/
def hasJsExtension (name : String) : Bool :=
  JS_EXTENSIONS.contains (toLowerString (extname name))

mutual
/-- Embedding of `calculateJsSize` from src/fileFinder.ts on a resolved node: sum the sizes
of source files, skipping excluded names and never descending into
`node_modules`.  On a file node `readdirSync` throws, caught as total 0. -/
def calculateJsSizeNode : FsNode → Nat
  | FsNode.file _ _ => 0
  | FsNode.dir entries => calculateJsSizeEntries entries

/-- The `for (const entry of entries)` loop of `calculateJsSize`. -/
def calculateJsSizeEntries : List (String × FsNode) → Nat
  | [] => 0
  | (name, node) :: rest =>
    (if shouldExclude name then 0
     else
       match node with
       | FsNode.dir es =>
         if name ≠ "node_modules" then calculateJsSizeNode (FsNode.dir es) else 0
       | FsNode.file size _ => if hasJsExtension name then size else 0)
    + calculateJsSizeEntries rest
end

/-- Embedding of `calculateJsSize` by path; a missing path makes `readdirSync` throw,
caught as 0. -/
def calculateJsSize (fs : FsNode) (p : FsPath) : Nat :=
  match fs.resolve p with
  | some n => calculateJsSizeNode n
  | none => 0

mutual
/-- The `walkDir` helper of `getNodeModulesSize`: sum every source file's size
with no exclusions at all. -/
def walkDirNode : FsNode → Nat
  | FsNode.file _ _ => 0
  | FsNode.dir entries => walkDirEntries entries

/-- Loop of `walkDir`. -/
def walkDirEntries : List (String × FsNode) → Nat
  | [] => 0
  | (name, node) :: rest =>
    (match node with
     | FsNode.dir es => walkDirNode (FsNode.dir es)
     | FsNode.file size _ => if hasJsExtension name then size else 0)
    + walkDirEntries rest
end

/-- Embedding of `getNodeModulesSize` from src/fileFinder.ts. -/
def getNodeModulesSize (fs : FsNode) (cwd : FsPath) : Nat :=
  match fs.resolve (cwd ++ ["node_modules"]) with
  | some n => walkDirNode n
  | none => 0

/-- Embedding of `findPackagePath` from src/fileFinder.ts: `cwd/node_modules/name`, with a
two-segment fallback for scoped names.  Names are modelled as single path
segments, so the scoped fallback splits on `/` explicitly. -/
def findPackagePath (fs : FsNode) (packageName : String) (cwd : FsPath) :
    Option FsPath :=
  let directPath := cwd ++ ["node_modules", packageName]
  if fs.existsSync directPath then some directPath
  else if startsWithString packageName "@" then
    match packageName.splitOn "/" with
    | p0 :: p1 :: _ =>
      let scopedPath := cwd ++ ["node_modules", p0, p1]
      if fs.existsSync scopedPath then some scopedPath else none
    | _ => none
  else none

/-- Embedding of `SizeBreakdown` from src/types.ts. -/
structure SizeBreakdown where
  name : String
  size : Nat
deriving Repr, DecidableEq

/-- The install-path choice of `getDependencyTree`'s loop body: prefer the
nested `packagePath/node_modules/depName`, falling back to the project-root
`cwd/node_modules/depName`. -/
def depInstallPath (fs : FsNode) (packagePath cwd : FsPath) (depName : String) :
    FsPath :=
  let nestedPath := packagePath ++ ["node_modules", depName]
  if fs.existsSync nestedPath then nestedPath
  else cwd ++ ["node_modules", depName]

/-- The `for (const depName of Object.keys(pkg.dependencies))` loop of
`getDependencyTree`, with the shared mutable `visited` set threaded
explicitly; `recur` is the recursive call into a dependency's own manifest. -/
def gdtLoop (fs : FsNode) (cwd : FsPath) (packagePath : FsPath)
    (recur : FsPath → List String → List SizeBreakdown × List String) :
    List String → List String → List SizeBreakdown × List String
  | [], visited => ([], visited)
  | depName :: rest, visited =>
    if depName ∈ visited then gdtLoop fs cwd packagePath recur rest visited
    else
      let visited1 := depName :: visited
      let depPath := depInstallPath fs packagePath cwd depName
      if fs.existsSync depPath then
        let size := calculateJsSize fs depPath
        let entry := if size > 0 then [SizeBreakdown.mk depName size] else []
        let sub := recur depPath visited1
        let restResult := gdtLoop fs cwd packagePath recur rest sub.2
        (entry ++ sub.1 ++ restResult.1, restResult.2)
      else gdtLoop fs cwd packagePath recur rest visited1

/-- Embedding of `getDependencyTree` from src/fileFinder.ts, recursion bounded by fuel
(the visited-set guard makes any fuel beyond the number of declared
dependency names inert). -/
def getDependencyTree (fs : FsNode) (cwd : FsPath) :
    Nat → FsPath → List String → List SizeBreakdown × List String
  | 0, _, visited => ([], visited)
  | fuel + 1, packagePath, visited =>
    match fs.readPackageJson (packagePath ++ ["package.json"]) with
    | none => ([], visited)
    | some pkg =>
      gdtLoop fs cwd packagePath (getDependencyTree fs cwd fuel)
        pkg.dependencies visited

/-- Invariant of the transitive walk relative to its incoming visited set:
breakdown names are pairwise distinct, fresh with respect to the incoming
visited set, recorded in the outgoing visited set (which only grows), and
every recorded size is strictly positive. -/
def GdtInv (visited : List String) (result : List SizeBreakdown × List String) :
    Prop :=
  (result.1.map SizeBreakdown.name).Nodup ∧
  (∀ e ∈ result.1, e.name ∉ visited) ∧
  (∀ v ∈ visited, v ∈ result.2) ∧
  (∀ e ∈ result.1, e.name ∈ result.2) ∧
  (∀ e ∈ result.1, 0 < e.size)

mutual
/-- Total number of dependency declarations in the tree, used to size the
fuel of `analyzeSizeMap`'s traversal. -/
def depNameCount : FsNode → Nat
  | FsNode.file _ manifest =>
    match manifest with
    | some pkg => pkg.dependencies.length
    | none => 0
  | FsNode.dir entries => depNameCountEntries entries

/-- Entry-list half of `depNameCount`. -/
def depNameCountEntries : List (String × FsNode) → Nat
  | [] => 0
  | (_, node) :: rest => depNameCount node + depNameCountEntries rest
end

/-- Descending-size order used by `.sort((a, b) => b.size - a.size)`. -/
def sizeDescOrder (a b : SizeBreakdown) : Prop :=
  b.size ≤ a.size

instance : DecidableRel sizeDescOrder := fun a b => Nat.decLe b.size a.size

instance : IsTotal SizeBreakdown sizeDescOrder :=
  ⟨fun a b => Nat.le_total b.size a.size⟩

instance : IsTrans SizeBreakdown sizeDescOrder :=
  ⟨fun _ _ _ h h' => Nat.le_trans h' h⟩

/-- The stable descending-size sort `.sort((a, b) => b.size - a.size)`
(JS `Array.prototype.sort` is stable; a stable sort under a total preorder is
unique, so insertion sort reproduces it exactly). -/
def sortBySizeDesc (l : List SizeBreakdown) : List SizeBreakdown :=
  l.insertionSort sizeDescOrder

/-- Embedding of `SizeMapResult` from src/types.ts.  The floating-point
`percentOfNodeModules` presentation field is not modelled. -/
structure SizeMapResult where
  packageName : String
  totalSize : Nat
  breakdown : List SizeBreakdown
  nodeModulesSize : Nat
deriving Repr, DecidableEq

/-- Embedding of `analyzeSizeMap` from src/fileFinder.ts: throw "not found" when the
package directory cannot be located; otherwise combine the package's own
filtered size with the size-sorted transitive dependency breakdown. -/
def analyzeSizeMap (fs : FsNode) (packageName : String) (cwd : FsPath) :
    Except String SizeMapResult :=
  match findPackagePath fs packageName cwd with
  | none => Except.error ("Package \"" ++ packageName ++ "\" not found in node_modules")
  | some packagePath =>
    let ownSize := calculateJsSize fs packagePath
    let depBreakdown :=
      (getDependencyTree fs cwd (depNameCount fs + 1) packagePath [packageName]).1
    let breakdown := SizeBreakdown.mk packageName ownSize :: sortBySizeDesc depBreakdown
    let totalSize := breakdown.foldl (fun sum item => sum + item.size) 0
    let nodeModulesSize := getNodeModulesSize fs cwd
    Except.ok (SizeMapResult.mk packageName totalSize breakdown nodeModulesSize)

/-- Decidable equality for `Except` results, so concrete runs can be checked
by `decide`. -/
instance {ε α : Type} [DecidableEq ε] [DecidableEq α] : DecidableEq (Except ε α) :=
  fun a b =>
  match a, b with
  | Except.error e, Except.error e' =>
    match decEq e e' with
    | isTrue h => isTrue (h ▸ rfl)
    | isFalse h => isFalse (fun hc => h (Except.error.inj hc))
  | Except.error _, Except.ok _ => isFalse (fun hc => Except.noConfusion hc)
  | Except.ok _, Except.error _ => isFalse (fun hc => Except.noConfusion hc)
  | Except.ok v, Except.ok v' =>
    match decEq v v' with
    | isTrue h => isTrue (h ▸ rfl)
    | isFalse h => isFalse (fun hc => h (Except.ok.inj hc))

/-! ### Concrete filesystems used as witnesses and counterexamples -/

/-- A manifest with production dependencies only. -/
def mkManifest (name : Option String) (deps : List String) : PackageJson :=
  PackageJson.mk name (some "1.0.0") none deps [] [] []

/-- The §8 scenario: project manifest (carrying no `name`) declares `a`;
`a`'s manifest declares `b`. -/
def fsScenario : ManifestFS :=
  ManifestFS.mk
    [ (["proj", "package.json"], mkManifest none ["a"]),
      (["proj", "node_modules", "a", "package.json"], mkManifest (some "a") ["b"]),
      (["proj", "node_modules", "b", "package.json"], mkManifest (some "b") []) ]

/-- The same scenario with the project manifest named `"root"`, as real
project manifests are. -/
def fsScenarioNamed : ManifestFS :=
  ManifestFS.mk
    [ (["proj", "package.json"], mkManifest (some "root") ["a"]),
      (["proj", "node_modules", "a", "package.json"], mkManifest (some "a") ["b"]),
      (["proj", "node_modules", "b", "package.json"], mkManifest (some "b") []) ]

/-- A manifest graph with the cycle `A → B → A`, target `"t"` absent. -/
def fsCycle : ManifestFS :=
  ManifestFS.mk
    [ (["proj", "package.json"], mkManifest none ["A"]),
      (["proj", "node_modules", "A", "package.json"], mkManifest (some "A") ["B"]),
      (["proj", "node_modules", "B", "package.json"], mkManifest (some "B") ["A"]) ]

/-- A named root declaring target `x` directly and also reaching it through
`y` (the §8 redundancy scenario, on a root manifest that has a `name`). -/
def fsRedundant : ManifestFS :=
  ManifestFS.mk
    [ (["proj", "package.json"], mkManifest (some "root") ["x", "y"]),
      (["proj", "node_modules", "x", "package.json"], mkManifest (some "x") []),
      (["proj", "node_modules", "y", "package.json"], mkManifest (some "y") ["x"]) ]

/-- The redundancy scenario on a root manifest without a `name` field. -/
def fsRedundantUnnamed : ManifestFS :=
  ManifestFS.mk
    [ (["proj", "package.json"], mkManifest none ["x", "y"]),
      (["proj", "node_modules", "x", "package.json"], mkManifest (some "x") []),
      (["proj", "node_modules", "y", "package.json"], mkManifest (some "y") ["x"]) ]

/-- An empty manifest filesystem. -/
def fsEmpty : ManifestFS := ManifestFS.mk []

/-- A manifest graph contains the two-cycle `A → B → A` with neither module
equal to the target: manifests for `A` and `B` exist, each declaring the
other as a dependency. -/
def HasTwoCycle (fs : ManifestFS) (A B target : String) : Prop :=
  A ≠ target ∧ B ≠ target ∧
  ∃ pA pB mA mB, fs.read pA = some mA ∧ fs.read pB = some mB ∧
    mA.name = some A ∧ mB.name = some B ∧
    B ∈ mA.dependencies ∧ A ∈ mB.dependencies

/-- A `package.json` file node (30 bytes on disk, not a bundled-JS file). -/
def manifestFile (deps : List String) : FsNode :=
  FsNode.file 30 (some (mkManifest none deps))

/-- Install tree for the size map: target `t` (10 bytes of JS) depends on
`z` (no JS at all, filtered size 0), which depends on `w` (5 bytes of JS). -/
def fsTree : FsNode :=
  FsNode.dir [("proj", FsNode.dir [
    ("node_modules", FsNode.dir [
      ("t", FsNode.dir [("package.json", manifestFile ["z"]),
                        ("index.js", FsNode.file 10 none)]),
      ("z", FsNode.dir [("package.json", manifestFile ["w"]),
                        ("readme.md", FsNode.file 100 none)]),
      ("w", FsNode.dir [("package.json", manifestFile []),
                        ("index.js", FsNode.file 5 none)])])])]

/-- An install tree that does not contain package `q` at all. -/
def fsTreeNoQ : FsNode :=
  FsNode.dir [("proj", FsNode.dir [("node_modules", FsNode.dir [])])]

/-! ## Theorems

### C2: category flattening order -/

/-- Lookup via `lookupDep` skips over a rewrite of entries keyed by some other name. -/
theorem lookupDep_map_ne {k n : String} (v : DepType) (h : k ≠ n) :
    ∀ r : List (String × DepType),
      lookupDep (r.map (fun p => if p.1 = k then (k, v) else p)) n = lookupDep r n := by
  intro r
  induction r with
  | nil => rfl
  | cons p rest ih =>
    rw [List.map_cons]
    by_cases hp : p.1 = k
    · rw [if_pos hp]
      simp only [lookupDep]
      rw [if_neg h, if_neg (fun hn => h (hp.symm.trans hn)), ih]
    · rw [if_neg hp]
      simp only [lookupDep, ih]

/-- After rewriting the entries keyed `k`, the key `k` looks up to the new
value, provided some entry carried it. -/
theorem lookupDep_map_self {k : String} (v : DepType) :
    ∀ r : List (String × DepType), r.any (fun p => p.1 = k) = true →
      lookupDep (r.map (fun p => if p.1 = k then (k, v) else p)) k = some v := by
  intro r
  induction r with
  | nil => intro h; simp at h
  | cons p rest ih =>
    intro hc
    rw [List.map_cons]
    by_cases hp : p.1 = k
    · rw [if_pos hp]
      simp [lookupDep]
    · rw [if_neg hp]
      simp only [List.any_cons, Bool.or_eq_true, decide_eq_true_eq] at hc
      rcases hc with hc | hc
      · exact absurd hc hp
      · simp only [lookupDep]
        rw [if_neg hp]
        exact ih hc

/-- Lookup over an appended list tries the left part first. -/
theorem lookupDep_append (l₁ l₂ : List (String × DepType)) (n : String) :
    lookupDep (l₁ ++ l₂) n =
      match lookupDep l₁ n with
      | some v => some v
      | none => lookupDep l₂ n := by
  induction l₁ with
  | nil => rfl
  | cons p rest ih =>
    by_cases hp : p.1 = n
    · simp [lookupDep, hp]
    · simp [lookupDep, hp, ih]

/-- A key no entry carries looks up to `none`. -/
theorem lookupDep_eq_none {r : List (String × DepType)} {k : String}
    (h : r.any (fun p => p.1 = k) = false) : lookupDep r k = none := by
  induction r with
  | nil => rfl
  | cons p rest ih =>
    simp only [List.any_cons, Bool.or_eq_false_iff, decide_eq_false_iff_not] at h
    simp [lookupDep, h.1, ih h.2]

/-- JS record assignment, observed through lookup: the assigned key now maps
to the assigned value and every other key is untouched. -/
theorem lookupDep_recordSet (r : List (String × DepType)) (k n : String) (v : DepType) :
    lookupDep (recordSet r k v) n = if k = n then some v else lookupDep r n := by
  unfold recordSet
  by_cases hc : r.any (fun p => p.1 = k) = true
  · rw [if_pos hc]
    by_cases hk : k = n
    · subst hk
      rw [if_pos rfl]
      exact lookupDep_map_self v r hc
    · rw [if_neg hk, lookupDep_map_ne v hk]
  · rw [if_neg hc, lookupDep_append]
    have hcf : r.any (fun p => p.1 = k) = false := by
      cases hval : r.any (fun p => p.1 = k)
      · rfl
      · exact absurd hval hc
    by_cases hk : k = n
    · subst hk
      rw [lookupDep_eq_none hcf]
      simp [lookupDep]
    · cases hl : lookupDep r n <;> simp [lookupDep, hk, hl]

/-- One flattening loop, observed through lookup: names in the loop's map get
the loop's category, all others keep their previous binding. -/
theorem lookupDep_recordSetAll (ks : List String) (v : DepType) (n : String) :
    ∀ r, lookupDep (recordSetAll r ks v) n =
      if n ∈ ks then some v else lookupDep r n := by
  induction ks with
  | nil => intro r; simp [recordSetAll]
  | cons k ks ih =>
    intro r
    show lookupDep (recordSetAll (recordSet r k v) ks v) n = _
    rw [ih, lookupDep_recordSet]
    by_cases h1 : n ∈ ks
    · rw [if_pos h1, if_pos (List.mem_cons_of_mem _ h1)]
    · rw [if_neg h1]
      by_cases h2 : k = n
      · subst h2
        rw [if_pos rfl, if_pos (List.mem_cons_self _ _)]
      · have hnm : n ∉ k :: ks := by
          intro hmem
          rcases List.mem_cons.mp hmem with hh | hh
          · exact h2 hh.symm
          · exact h1 hh
        rw [if_neg h2, if_neg hnm]

/-- C2: flattening the four dependency maps assigns each module name the
category of the last map (in the order production, development, peer,
optional) that contains it; a name in several maps resolves to the later
category. -/
theorem c2_category_flattening_order (pkg : PackageJson) (n : String) :
    lookupDep (getAllDependencies pkg) n =
      if n ∈ pkg.optionalDependencies then some DepType.optional
      else if n ∈ pkg.peerDependencies then some DepType.peer
      else if n ∈ pkg.devDependencies then some DepType.dev
      else if n ∈ pkg.dependencies then some DepType.prod
      else none := by
  unfold getAllDependencies
  rw [lookupDep_recordSetAll, lookupDep_recordSetAll, lookupDep_recordSetAll,
    lookupDep_recordSetAll]
  rfl

/-! ### C7: de-duplication keeps first occurrences and is idempotent -/

/-- De-duplication only ever drops elements, in place. -/
theorem dedupePathsAux_sublist (l : List DependencyPath) :
    ∀ seen, (dedupePathsAux seen l).Sublist l := by
  induction l with
  | nil => intro seen; simp [dedupePathsAux]
  | cons p rest ih =>
    intro seen
    simp only [dedupePathsAux]
    by_cases h : pathKey p ∈ seen
    · rw [if_pos h]
      exact (ih seen).cons p
    · rw [if_neg h]
      exact (ih (pathKey p :: seen)).cons₂ p

/-- Every kept element has a key outside the seen set and is the first
element of the input carrying its key. -/
theorem dedupePathsAux_first_occurrence (l : List DependencyPath) :
    ∀ seen, ∀ p ∈ dedupePathsAux seen l,
      pathKey p ∉ seen ∧ l.find? (fun q => pathKey q == pathKey p) = some p := by
  induction l with
  | nil => intro seen p hp; simp [dedupePathsAux] at hp
  | cons x rest ih =>
    intro seen p hp
    simp only [dedupePathsAux] at hp
    by_cases hx : pathKey x ∈ seen
    · rw [if_pos hx] at hp
      obtain ⟨hfresh, hfind⟩ := ih seen p hp
      have hne : pathKey x ≠ pathKey p := fun hk => hfresh (hk ▸ hx)
      refine ⟨hfresh, ?_⟩
      rw [List.find?_cons_of_neg, hfind]
      simp [hne]
    · rw [if_neg hx] at hp
      rcases List.mem_cons.mp hp with hp | hp
      · subst hp
        refine ⟨hx, ?_⟩
        rw [List.find?_cons_of_pos]
        simp
      · obtain ⟨hfresh, hfind⟩ := ih (pathKey x :: seen) p hp
        have hne : pathKey x ≠ pathKey p := by
          intro hk
          exact hfresh (hk ▸ List.mem_cons_self _ _)
        refine ⟨fun hmem => hfresh (List.mem_cons_of_mem _ hmem), ?_⟩
        rw [List.find?_cons_of_neg, hfind]
        simp [hne]

/-- The kept elements carry pairwise distinct keys. -/
theorem dedupePathsAux_keys_nodup (l : List DependencyPath) :
    ∀ seen, ((dedupePathsAux seen l).map pathKey).Nodup := by
  induction l with
  | nil => intro seen; simp [dedupePathsAux]
  | cons x rest ih =>
    intro seen
    simp only [dedupePathsAux]
    by_cases hx : pathKey x ∈ seen
    · rw [if_pos hx]
      exact ih seen
    · rw [if_neg hx]
      rw [List.map_cons]
      refine List.Nodup.cons ?_ (ih (pathKey x :: seen))
      intro hmem
      obtain ⟨q, hq, hkq⟩ := List.mem_map.mp hmem
      obtain ⟨hfresh, _⟩ := dedupePathsAux_first_occurrence rest (pathKey x :: seen) q hq
      exact hfresh (hkq ▸ List.mem_cons_self _ _)

/-- Every input key survives de-duplication (or was already seen). -/
theorem dedupePathsAux_covers (l : List DependencyPath) :
    ∀ seen, ∀ p ∈ l, pathKey p ∈ seen ∨
      ∃ q ∈ dedupePathsAux seen l, pathKey q = pathKey p := by
  induction l with
  | nil => intro seen p hp; simp at hp
  | cons x rest ih =>
    intro seen p hp
    simp only [dedupePathsAux]
    by_cases hx : pathKey x ∈ seen
    · rw [if_pos hx]
      rcases List.mem_cons.mp hp with hp | hp
      · exact Or.inl (hp ▸ hx)
      · exact ih seen p hp
    · rw [if_neg hx]
      rcases List.mem_cons.mp hp with hp | hp
      · subst hp
        exact Or.inr ⟨p, List.mem_cons_self _ _, rfl⟩
      · rcases ih (pathKey x :: seen) p hp with hseen | ⟨q, hq, hkq⟩
        · rcases List.mem_cons.mp hseen with hk | hk
          · exact Or.inr ⟨x, List.mem_cons_self _ _, hk.symm⟩
          · exact Or.inl hk
        · exact Or.inr ⟨q, List.mem_cons_of_mem _ hq, hkq⟩

/-- A list whose keys are fresh and pairwise distinct passes through
unchanged. -/
theorem dedupePathsAux_id (l : List DependencyPath) :
    ∀ seen, (∀ p ∈ l, pathKey p ∉ seen) → ((l.map pathKey).Nodup) →
      dedupePathsAux seen l = l := by
  induction l with
  | nil => intro seen _ _; rfl
  | cons x rest ih =>
    intro seen h1 h2
    simp only [dedupePathsAux]
    rw [if_neg (h1 x (List.mem_cons_self _ _))]
    rw [List.map_cons, List.nodup_cons] at h2
    refine congrArg (x :: ·) (ih (pathKey x :: seen) ?_ h2.2)
    intro p hp hmem
    rcases List.mem_cons.mp hmem with hk | hk
    · exact h2.1 (hk ▸ List.mem_map_of_mem pathKey hp)
    · exact h1 p (List.mem_cons_of_mem _ hp) hk

/-- C7: de-duplication keeps, per composite key, only the first occurrence,
preserves first-seen order, covers every input key, and is idempotent. -/
theorem c7_dedupe_first_seen_idempotent (l : List DependencyPath) :
    (dedupePaths l).Sublist l ∧
    ((dedupePaths l).map pathKey).Nodup ∧
    (∀ p ∈ l, ∃ q ∈ dedupePaths l, pathKey q = pathKey p) ∧
    (∀ p ∈ dedupePaths l, l.find? (fun q => pathKey q == pathKey p) = some p) ∧
    dedupePaths (dedupePaths l) = dedupePaths l := by
  refine ⟨dedupePathsAux_sublist l [], dedupePathsAux_keys_nodup l [], ?_, ?_, ?_⟩
  · intro p hp
    rcases dedupePathsAux_covers l [] p hp with hseen | h
    · simp at hseen
    · exact h
  · intro p hp
    exact (dedupePathsAux_first_occurrence l [] p hp).2
  · refine dedupePathsAux_id (dedupePaths l) [] (fun p _ => ?_) (dedupePathsAux_keys_nodup l [])
    simp

/-- C7 witness: the general theorem applied to a concrete three-element list
with a duplicated (category, chain) key. -/
theorem c7_witness :
    dedupePaths (dedupePaths
      [DependencyPath.mk ["a"] DepType.prod ["r"],
       DependencyPath.mk ["b", "a"] DepType.prod ["r"],
       DependencyPath.mk ["a"] DepType.prod ["q"]]) =
      dedupePaths
      [DependencyPath.mk ["a"] DepType.prod ["r"],
       DependencyPath.mk ["b", "a"] DepType.prod ["r"],
       DependencyPath.mk ["a"] DepType.prod ["q"]] ∧
    ([DependencyPath.mk ["a"] DepType.prod ["r"],
      DependencyPath.mk ["b", "a"] DepType.prod ["r"],
      DependencyPath.mk ["a"] DepType.prod ["q"]].find?
        (fun q => pathKey q == pathKey (DependencyPath.mk ["b", "a"] DepType.prod ["r"]))) =
      some (DependencyPath.mk ["b", "a"] DepType.prod ["r"]) :=
  ⟨(c7_dedupe_first_seen_idempotent _).2.2.2.2,
   (c7_dedupe_first_seen_idempotent _).2.2.2.1 _ (by decide)⟩

/-! ### C1: the two-hop scenario -/

/-- C1 counterexample: on a root manifest carrying a `name` (here `"root"`),
the code prefixes every chain with that name: resolving `b` yields the single
chain `["root", "a", "b"]`, not `["a", "b"]` as the claim states. -/
theorem c1_counterexample_named_root :
    findDependencyPaths fsScenarioNamed "b" ["proj"] 10 =
      some [DependencyPath.mk ["root", "a", "b"] DepType.prod
        ["proj", "node_modules", "a", "package.json"]] ∧
    (["root", "a", "b"] : List String) ≠ ["a", "b"] := by
  exact ⟨by decide, by decide⟩

/-- C1 amended: in the scenario (root declares `a`, `a` declares `b`,
target `b`) the resolver returns exactly one chain of category prod; that
chain is `[a, b]` when the root manifest has no `name` field, while a root
manifest named `"root"` contributes its name, giving `["root", "a", "b"]`. -/
theorem c1_scenario_single_chain :
    findDependencyPaths fsScenario "b" ["proj"] 10 =
      some [DependencyPath.mk ["a", "b"] DepType.prod
        ["proj", "node_modules", "a", "package.json"]] ∧
    findDependencyPaths fsScenarioNamed "b" ["proj"] 10 =
      some [DependencyPath.mk ["root", "a", "b"] DepType.prod
        ["proj", "node_modules", "a", "package.json"]] := by
  exact ⟨by decide, by decide⟩

/-! ### C6: the redundancy suggestion -/

/-- C6, evaluated at the failing input: in `fsRedundant` the target `x` is a
direct top-level dependency of the (named) root manifest and is also reached
through the strictly longer chain via `y`, yet `analyzePackage` emits no
suggestion at all — the `chain.length === 1` test never matches a direct
chain `["root", "x"]`.  On the identical graph with a nameless root manifest
the suggestion is emitted, matching the README example's claim. -/
theorem c6_redundancy_suggestion_not_emitted :
    (fsRedundant.read ["proj", "package.json"]).map PackageJson.dependencies =
      some ["x", "y"] ∧
    (analyzePackage fsRedundant "x" ["proj"]).toOption.map AnalyzeResult.paths =
      some [DependencyPath.mk ["root", "x"] DepType.prod ["proj", "package.json"],
            DependencyPath.mk ["root", "y", "x"] DepType.prod
              ["proj", "node_modules", "y", "package.json"]] ∧
    (analyzePackage fsRedundant "x" ["proj"]).toOption.map AnalyzeResult.suggestions =
      some [] ∧
    (analyzePackage fsRedundantUnnamed "x" ["proj"]).toOption.map AnalyzeResult.suggestions =
      some ["Can be removed from direct dependencies - it's installed transitively"] := by
  refine ⟨by decide, by decide, by decide, by decide⟩

/-! ### C8: every returned chain ends in the target -/

/-- Every path emitted by the edge loop has a non-empty chain ending in the
target module name. -/
theorem processDeps_chain_ends (fs : ManifestFS) (target cn : String)
    (ch : List String) (pp : FsPath) :
    ∀ deps, ∀ p ∈ (processDeps fs target cn ch pp deps).1,
      p.chain ≠ [] ∧ p.chain.getLast? = some target := by
  intro deps
  induction deps with
  | nil => intro p hp; simp [processDeps] at hp
  | cons d restDeps ih =>
    obtain ⟨dn, dt⟩ := d
    intro p hp
    simp only [processDeps] at hp
    by_cases hdt : dn = target
    · rw [if_pos hdt] at hp
      subst hdt
      rcases List.mem_cons.mp hp with rfl | hp
      · constructor
        · split_ifs <;> simp
        · split_ifs <;> simp [List.getLast?_append_cons]
      · exact ih p hp
    · rw [if_neg hdt] at hp
      cases hfind : findPackageInNodeModules fs dn pp.dropLast with
      | none =>
        rw [hfind] at hp
        exact ih p hp
      | some dp =>
        rw [hfind] at hp
        exact ih p hp

/-- Invariant of the traversal loop: recorded paths keep non-empty chains
ending in the target. -/
theorem findDependencyPathsAux_chain_inv (fs : ManifestFS) (target : String)
    (maxDepth : Nat) :
    ∀ fuel queue visited paths res,
      (∀ p ∈ paths, p.chain ≠ [] ∧ p.chain.getLast? = some target) →
      findDependencyPathsAux fs target maxDepth fuel queue visited paths = some res →
      ∀ p ∈ res.1, p.chain ≠ [] ∧ p.chain.getLast? = some target := by
  intro fuel
  induction fuel with
  | zero =>
    intro queue visited paths res hinv heq
    cases queue with
    | nil =>
      simp only [findDependencyPathsAux] at heq
      cases heq
      exact hinv
    | cons cur rest => simp [findDependencyPathsAux] at heq
  | succ f ih =>
    intro queue visited paths res hinv heq
    cases queue with
    | nil =>
      simp only [findDependencyPathsAux] at heq
      cases heq
      exact hinv
    | cons cur rest =>
      simp only [findDependencyPathsAux] at heq
      split at heq
      · exact ih _ _ _ _ hinv heq
      · split at heq
        · exact ih _ _ _ _ hinv heq
        · split at heq <;> split at heq
          · exact ih _ _ _ _ hinv heq
          · refine ih _ _ _ _ ?_ heq
            intro p hp
            rcases List.mem_append.mp hp with hp | hp
            · exact hinv p hp
            · exact processDeps_chain_ends fs target _ _ _ _ p hp
          · exact ih _ _ _ _ hinv heq
          · refine ih _ _ _ _ ?_ heq
            intro p hp
            rcases List.mem_append.mp hp with hp | hp
            · exact hinv p hp
            · exact processDeps_chain_ends fs target _ _ _ _ p hp

/-- C8: every `DependencyChain` the resolver returns is non-empty and its
last element is the target module name. -/
theorem c8_every_chain_ends_in_target (fs : ManifestFS) (target : String)
    (cwd : FsPath) (maxDepth : Nat) (res : List DependencyPath)
    (h : findDependencyPaths fs target cwd maxDepth = some res) :
    ∀ p ∈ res, p.chain ≠ [] ∧ p.chain.getLast? = some target := by
  simp only [findDependencyPaths, findDependencyPathsFull] at h
  by_cases hroot : fs.existsSync (cwd ++ ["package.json"])
  · rw [if_pos hroot] at h
    cases haux : findDependencyPathsAux fs target maxDepth (sufficientFuel fs)
        [QueueItem.mk "" [] (cwd ++ ["package.json"])] [] [] with
    | none => rw [haux] at h; simp at h
    | some pr =>
      rw [haux] at h
      simp at h
      subst h
      exact findDependencyPathsAux_chain_inv fs target maxDepth _ _ _ _ pr
        (by intro p hp; simp at hp) haux
  · rw [if_neg hroot] at h
    simp at h
    subst h
    intro p hp
    simp at hp

/-- C8 witness: the invariant at the concrete two-hop scenario. -/
theorem c8_witness :
    (["a", "b"] : List String) ≠ [] ∧
      (["a", "b"] : List String).getLast? = some "b" :=
  c8_every_chain_ends_in_target fsScenario "b" ["proj"] 10
    [DependencyPath.mk ["a", "b"] DepType.prod
      ["proj", "node_modules", "a", "package.json"]]
    (by decide)
    (DependencyPath.mk ["a", "b"] DepType.prod
      ["proj", "node_modules", "a", "package.json"])
    (by decide)

/-! ### Termination of the resolver (C4, C5) -/

/-- A successful manifest read exhibits a filesystem entry. -/
theorem ManifestFS.read_mem {fs : ManifestFS} {p : FsPath} {m : PackageJson}
    (h : fs.read p = some m) : (p, m) ∈ fs.files := by
  unfold ManifestFS.read at h
  cases hf : fs.files.find? (fun pr => pr.1 == p) with
  | none => rw [hf] at h; cases h
  | some pr =>
    rw [hf] at h
    have hm := Option.some.inj h
    subst hm
    have hmem := List.mem_of_find?_eq_some hf
    have hkey := List.find?_some hf
    have hp : pr.1 = p := by simpa using hkey
    rw [← hp, Prod.mk.eta]
    exact hmem

/-- The empty root name is a possible traversal name. -/
theorem mem_nameList_root (fs : ManifestFS) : "" ∈ fs.nameList :=
  List.mem_cons_self _ _

/-- A stored manifest's own name is a possible traversal name. -/
theorem mem_nameList_of_manifest_name {fs : ManifestFS} {p : FsPath}
    {m : PackageJson} (h : (p, m) ∈ fs.files) : m.name.getD "" ∈ fs.nameList := by
  unfold ManifestFS.nameList
  exact List.mem_cons_of_mem _
    (List.mem_flatMap.mpr ⟨(p, m), h, List.mem_cons_self _ _⟩)

/-- A stored manifest's dependency name is a possible traversal name. -/
theorem mem_nameList_of_dep {fs : ManifestFS} {p : FsPath} {m : PackageJson}
    {n : String} (h : (p, m) ∈ fs.files)
    (hn : n ∈ (getAllDependencies m).map Prod.fst) : n ∈ fs.nameList := by
  unfold ManifestFS.nameList
  exact List.mem_cons_of_mem _
    (List.mem_flatMap.mpr ⟨(p, m), h, List.mem_cons_of_mem _ hn⟩)

/-- A readable path is a possible traversal path. -/
theorem mem_pathList_of_read {fs : ManifestFS} {p : FsPath} {m : PackageJson}
    (h : fs.read p = some m) : p ∈ fs.pathList := by
  unfold ManifestFS.pathList
  exact List.mem_map.mpr ⟨(p, m), ManifestFS.read_mem h, rfl⟩

/-- Any visit key over possible names and paths lies in the finite key list. -/
theorem visitKey_mem_allKeys {fs : ManifestFS} {n : String} {p : FsPath}
    (hn : n ∈ fs.nameList) (hp : p ∈ fs.pathList) :
    visitKeyOf n p ∈ allKeys fs := by
  unfold allKeys
  rw [List.mem_dedup]
  exact List.mem_flatMap.mpr ⟨n, hn, List.mem_map.mpr ⟨p, hp, rfl⟩⟩

/-- The running maximum bounds every member's dependency count. -/
theorem foldr_max_le (pr : FsPath × PackageJson) :
    ∀ l : List (FsPath × PackageJson), pr ∈ l →
      (getAllDependencies pr.2).length ≤
        l.foldr (fun q acc => max (getAllDependencies q.2).length acc) 0 := by
  intro l
  induction l with
  | nil => intro h; simp at h
  | cons q rest ih =>
    intro h
    rcases List.mem_cons.mp h with rfl | h
    · exact Nat.le_max_left _ _
    · exact Nat.le_trans (ih h) (Nat.le_max_right _ _)

/-- Every stored manifest has at most `maxDepCount fs` edges. -/
theorem depLength_le_maxDepCount {fs : ManifestFS} {p : FsPath} {m : PackageJson}
    (h : (p, m) ∈ fs.files) :
    (getAllDependencies m).length ≤ maxDepCount fs :=
  foldr_max_le (p, m) fs.files h

/-- The edge loop enqueues at most one item per edge. -/
theorem processDeps_queue_length (fs : ManifestFS) (target cn : String)
    (ch : List String) (pp : FsPath) :
    ∀ deps, (processDeps fs target cn ch pp deps).2.length ≤ deps.length := by
  intro deps
  induction deps with
  | nil => simp [processDeps]
  | cons d restDeps ih =>
    obtain ⟨dn, dt⟩ := d
    simp only [processDeps]
    by_cases hdt : dn = target
    · rw [if_pos hdt]
      exact Nat.le_succ_of_le ih
    · rw [if_neg hdt]
      cases hfind : findPackageInNodeModules fs dn pp.dropLast with
      | none => exact Nat.le_succ_of_le ih
      | some dp => simpa using Nat.succ_le_succ ih

/-- Every enqueued item is named by one of the manifest's edges. -/
theorem processDeps_queue_names (fs : ManifestFS) (target cn : String)
    (ch : List String) (pp : FsPath) :
    ∀ deps, ∀ it ∈ (processDeps fs target cn ch pp deps).2,
      it.packageName ∈ deps.map Prod.fst := by
  intro deps
  induction deps with
  | nil => intro it hit; simp [processDeps] at hit
  | cons d restDeps ih =>
    obtain ⟨dn, dt⟩ := d
    intro it hit
    simp only [processDeps] at hit
    by_cases hdt : dn = target
    · rw [if_pos hdt] at hit
      exact List.mem_cons_of_mem _ (ih it hit)
    · rw [if_neg hdt] at hit
      cases hfind : findPackageInNodeModules fs dn pp.dropLast with
      | none =>
        rw [hfind] at hit
        exact List.mem_cons_of_mem _ (ih it hit)
      | some dp =>
        rw [hfind] at hit
        rcases List.mem_cons.mp hit with rfl | hit
        · exact List.mem_cons_self _ _
        · exact List.mem_cons_of_mem _ (ih it hit)

/-- The traversal cannot exhaust its fuel while the measure
`(unvisited keys) * (max edges + 1) + queue length` stays below it: each
discarded item shrinks the queue, and each expansion retires one fresh visit
key while enqueuing at most `maxDepCount fs` items. -/
theorem findDependencyPathsAux_isSome (fs : ManifestFS) (target : String)
    (maxDepth : Nat) :
    ∀ fuel queue visited paths,
      (∀ it ∈ queue, it.packageName ∈ fs.nameList) →
      visited.Nodup →
      (∀ k ∈ visited, k ∈ allKeys fs) →
      ((allKeys fs).length - visited.length) * (maxDepCount fs + 1) + queue.length ≤ fuel →
      (findDependencyPathsAux fs target maxDepth fuel queue visited paths).isSome := by
  intro fuel
  induction fuel with
  | zero =>
    intro queue visited paths _ _ _ hm
    cases queue with
    | nil => simp [findDependencyPathsAux]
    | cons cur rest =>
      exfalso
      simp only [List.length_cons] at hm
      omega
  | succ f ih =>
    intro queue visited paths hq hnd hsub hm
    cases queue with
    | nil => simp [findDependencyPathsAux]
    | cons cur rest =>
      have hqrest : ∀ it ∈ rest, it.packageName ∈ fs.nameList :=
        fun it hit => hq it (List.mem_cons_of_mem _ hit)
      simp only [List.length_cons] at hm
      have hmrest : ((allKeys fs).length - visited.length) * (maxDepCount fs + 1) +
          rest.length ≤ f := by omega
      simp only [findDependencyPathsAux]
      split
      · exact ih rest visited paths hqrest hnd hsub hmrest
      · split
        · exact ih rest visited paths hqrest hnd hsub hmrest
        · next pkg hread =>
          have hexpand : ∀ cn, cn ∈ fs.nameList →
              visitKeyOf cn cur.packageJsonPath ∉ visited →
              (findDependencyPathsAux fs target maxDepth f
                (rest ++ (processDeps fs target cn cur.chain
                  cur.packageJsonPath (getAllDependencies pkg)).2)
                (visitKeyOf cn cur.packageJsonPath :: visited)
                (paths ++ (processDeps fs target cn cur.chain
                  cur.packageJsonPath (getAllDependencies pkg)).1)).isSome := by
            intro cn hcn hvnot
            have hsub' : ∀ k ∈ visitKeyOf cn cur.packageJsonPath :: visited,
                k ∈ allKeys fs := by
              intro k hk
              rcases List.mem_cons.mp hk with rfl | hk
              · exact visitKey_mem_allKeys hcn (mem_pathList_of_read hread)
              · exact hsub k hk
            have hnd' : (visitKeyOf cn cur.packageJsonPath :: visited).Nodup :=
              List.nodup_cons.mpr ⟨hvnot, hnd⟩
            apply ih
            · intro it hit
              rcases List.mem_append.mp hit with hit | hit
              · exact hqrest it hit
              · exact mem_nameList_of_dep (ManifestFS.read_mem hread)
                  (processDeps_queue_names fs target cn cur.chain
                    cur.packageJsonPath (getAllDependencies pkg) it hit)
            · exact hnd'
            · exact hsub'
            · have hlen : (visitKeyOf cn cur.packageJsonPath :: visited).length ≤
                  (allKeys fs).length :=
                (hnd'.subperm hsub').length_le
              simp only [List.length_cons] at hlen
              have hsteplen : (processDeps fs target cn cur.chain
                  cur.packageJsonPath (getAllDependencies pkg)).2.length ≤
                  maxDepCount fs :=
                Nat.le_trans
                  (processDeps_queue_length fs target cn cur.chain
                    cur.packageJsonPath (getAllDependencies pkg))
                  (depLength_le_maxDepCount (ManifestFS.read_mem hread))
              have hmul : ((allKeys fs).length - visited.length) * (maxDepCount fs + 1) =
                  ((allKeys fs).length - (visited.length + 1)) * (maxDepCount fs + 1) +
                    (maxDepCount fs + 1) := by
                have h1 : (allKeys fs).length - visited.length =
                    ((allKeys fs).length - (visited.length + 1)) + 1 := by omega
                rw [h1, Nat.add_mul, Nat.one_mul]
              simp only [List.length_append, List.length_cons]
              omega
          split <;> split
          · exact ih rest visited paths hqrest hnd hsub hmrest
          · next hvnot =>
            exact hexpand cur.packageName (hq cur (List.mem_cons_self _ _)) hvnot
          · exact ih rest visited paths hqrest hnd hsub hmrest
          · next hvnot =>
            exact hexpand (pkg.name.getD "")
              (mem_nameList_of_manifest_name (ManifestFS.read_mem hread)) hvnot

/-- The visited set stays duplicate-free: a key is added only when absent. -/
theorem findDependencyPathsAux_visited_nodup (fs : ManifestFS) (target : String)
    (maxDepth : Nat) :
    ∀ fuel queue visited paths res,
      visited.Nodup →
      findDependencyPathsAux fs target maxDepth fuel queue visited paths = some res →
      res.2.Nodup := by
  intro fuel
  induction fuel with
  | zero =>
    intro queue visited paths res hnd heq
    cases queue with
    | nil =>
      simp only [findDependencyPathsAux] at heq
      cases heq
      exact hnd
    | cons cur rest => simp [findDependencyPathsAux] at heq
  | succ f ih =>
    intro queue visited paths res hnd heq
    cases queue with
    | nil =>
      simp only [findDependencyPathsAux] at heq
      cases heq
      exact hnd
    | cons cur rest =>
      simp only [findDependencyPathsAux] at heq
      split at heq
      · exact ih _ _ _ _ hnd heq
      · split at heq
        · exact ih _ _ _ _ hnd heq
        · split at heq <;> split at heq
          · exact ih _ _ _ _ hnd heq
          · next hvnot => exact ih _ _ _ _ (List.nodup_cons.mpr ⟨hvnot, hnd⟩) heq
          · exact ih _ _ _ _ hnd heq
          · next hvnot => exact ih _ _ _ _ (List.nodup_cons.mpr ⟨hvnot, hnd⟩) heq

/-- The resolver always terminates: `sufficientFuel` outlasts the traversal. -/
theorem findDependencyPathsFull_isSome (fs : ManifestFS) (target : String)
    (cwd : FsPath) (maxDepth : Nat) :
    ∃ r, findDependencyPathsFull fs target cwd maxDepth = some r := by
  simp only [findDependencyPathsFull]
  by_cases hroot : fs.existsSync (cwd ++ ["package.json"])
  · rw [if_pos hroot]
    have h := findDependencyPathsAux_isSome fs target maxDepth (sufficientFuel fs)
      [QueueItem.mk "" [] (cwd ++ ["package.json"])] [] []
      (by
        intro it hit
        rcases List.mem_cons.mp hit with rfl | hit
        · exact mem_nameList_root fs
        · simp at hit)
      List.nodup_nil
      (by intro k hk; simp at hk)
      (by simp [sufficientFuel])
    exact Option.isSome_iff_exists.mp h
  · rw [if_neg hroot]
    exact ⟨([], []), rfl⟩

/-- Visited keys of a completed resolution are pairwise distinct. -/
theorem findDependencyPathsFull_visited_nodup (fs : ManifestFS) (target : String)
    (cwd : FsPath) (maxDepth : Nat) (r : List DependencyPath × List String)
    (h : findDependencyPathsFull fs target cwd maxDepth = some r) : r.2.Nodup := by
  simp only [findDependencyPathsFull] at h
  by_cases hroot : fs.existsSync (cwd ++ ["package.json"])
  · rw [if_pos hroot] at h
    exact findDependencyPathsAux_visited_nodup fs target maxDepth _ _ _ _ r
      List.nodup_nil h
  · rw [if_neg hroot] at h
    cases h
    exact List.nodup_nil

/-- C4: on a manifest graph containing the cycle `A → B → A` with neither
module the target, resolution terminates and returns a finite result, and no
(module name, manifest path) visit key is ever expanded twice — the returned
visited set (one key per expansion) is duplicate-free. -/
theorem c4_cycle_safe_termination (fs : ManifestFS) (target : String)
    (cwd : FsPath) (A B : String) (hcyc : HasTwoCycle fs A B target) :
    ∃ r, findDependencyPathsFull fs target cwd 10 = some r ∧ r.2.Nodup := by
  obtain ⟨r, hr⟩ := findDependencyPathsFull_isSome fs target cwd 10
  exact ⟨r, hr, findDependencyPathsFull_visited_nodup fs target cwd 10 r hr⟩

/-- C4 witness: the concrete `A → B → A` graph with absent target `t`. -/
theorem c4_witness :
    ∃ r, findDependencyPathsFull fsCycle "t" ["proj"] 10 = some r ∧ r.2.Nodup :=
  c4_cycle_safe_termination fsCycle "t" ["proj"] "A" "B"
    ⟨by decide, by decide,
     ["proj", "node_modules", "A", "package.json"],
     ["proj", "node_modules", "B", "package.json"],
     mkManifest (some "A") ["B"], mkManifest (some "B") ["A"],
     by decide, by decide, by decide, by decide, by decide, by decide⟩

/-- C5: a missing project manifest makes the resolver return the empty list
rather than fail; the resolver always returns a list; and an unlocatable
target makes `analyzePackage` and `analyzeSizeMap` raise the "not found"
error before any traversal. -/
theorem c5_failure_semantics :
    (∀ (fs : ManifestFS) (target : String) (cwd : FsPath) (maxDepth : Nat),
      fs.existsSync (cwd ++ ["package.json"]) = false →
      findDependencyPaths fs target cwd maxDepth = some []) ∧
    (∀ (fs : ManifestFS) (target : String) (cwd : FsPath) (maxDepth : Nat),
      ∃ l, findDependencyPaths fs target cwd maxDepth = some l) ∧
    (∀ (fs : ManifestFS) (name : String) (cwd : FsPath),
      findPackageJsonPath fs name cwd = none →
      analyzePackage fs name cwd =
        Except.error ("Package \"" ++ name ++ "\" not found in node_modules")) ∧
    (∀ (fsT : FsNode) (name : String) (cwd : FsPath),
      findPackagePath fsT name cwd = none →
      analyzeSizeMap fsT name cwd =
        Except.error ("Package \"" ++ name ++ "\" not found in node_modules")) := by
  refine ⟨?_, ?_, ?_, ?_⟩
  · intro fs target cwd maxDepth h
    simp only [findDependencyPaths, findDependencyPathsFull]
    rw [h]
    simp
  · intro fs target cwd maxDepth
    obtain ⟨r, hr⟩ := findDependencyPathsFull_isSome fs target cwd maxDepth
    exact ⟨r.1, by simp [findDependencyPaths, hr]⟩
  · intro fs name cwd h
    simp only [analyzePackage]
    rw [h]
  · intro fsT name cwd h
    simp only [analyzeSizeMap]
    rw [h]

/-- C5 witness: each failure mode at a concrete input. -/
theorem c5_witness :
    findDependencyPaths fsEmpty "x" ["proj"] 10 = some [] ∧
    (∃ l, findDependencyPaths fsScenario "b" ["proj"] 10 = some l) ∧
    analyzePackage fsEmpty "x" ["proj"] =
      Except.error "Package \"x\" not found in node_modules" ∧
    analyzeSizeMap fsTreeNoQ "q" ["proj"] =
      Except.error "Package \"q\" not found in node_modules" :=
  ⟨c5_failure_semantics.1 fsEmpty "x" ["proj"] 10 (by decide),
   c5_failure_semantics.2.1 fsScenario "b" ["proj"] 10,
   c5_failure_semantics.2.2.1 fsEmpty "x" ["proj"] (by decide),
   c5_failure_semantics.2.2.2 fsTreeNoQ "q" ["proj"] (by decide)⟩

/-! ### The transitive size walk (C3, C9, C10) -/

/-- The loop preserves the walk invariant whenever the recursive call does. -/
theorem gdtLoop_inv (fs : FsNode) (cwd : FsPath) (packagePath : FsPath)
    (recur : FsPath → List String → List SizeBreakdown × List String)
    (hrec : ∀ pp vis, GdtInv vis (recur pp vis)) :
    ∀ deps visited, GdtInv visited (gdtLoop fs cwd packagePath recur deps visited) := by
  intro deps
  induction deps with
  | nil =>
    intro visited
    exact ⟨by simp [gdtLoop], by simp [gdtLoop], fun v hv => hv, by simp [gdtLoop],
      by simp [gdtLoop]⟩
  | cons dep rest ih =>
    intro visited
    simp only [gdtLoop]
    by_cases hmem : dep ∈ visited
    · rw [if_pos hmem]
      exact ih visited
    · rw [if_neg hmem]
      by_cases hex : fs.existsSync (depInstallPath fs packagePath cwd dep) = true
      · rw [if_pos hex]
        obtain ⟨hs_nodup, hs_fresh, hs_mono, hs_mem, hs_pos⟩ :=
          hrec (depInstallPath fs packagePath cwd dep) (dep :: visited)
        obtain ⟨hr_nodup, hr_fresh, hr_mono, hr_mem, hr_pos⟩ :=
          ih (recur (depInstallPath fs packagePath cwd dep) (dep :: visited)).2
        have hent : ∀ e ∈ (if calculateJsSize fs (depInstallPath fs packagePath cwd dep) > 0
            then [SizeBreakdown.mk dep (calculateJsSize fs (depInstallPath fs packagePath cwd dep))]
            else []), e.name = dep ∧ 0 < e.size := by
          split_ifs with hsz
          · intro e he
            have he' := List.mem_singleton.mp he
            subst he'
            exact ⟨rfl, hsz⟩
          · intro e he
            simp at he
        have hdep_sub2 : dep ∈ (recur (depInstallPath fs packagePath cwd dep)
            (dep :: visited)).2 :=
          hs_mono dep (List.mem_cons_self _ _)
        have hvis_sub2 : ∀ v ∈ visited,
            v ∈ (recur (depInstallPath fs packagePath cwd dep) (dep :: visited)).2 :=
          fun v hv => hs_mono v (List.mem_cons_of_mem _ hv)
        refine ⟨?_, ?_, ?_, ?_, ?_⟩
        · rw [List.map_append, List.map_append, List.nodup_append, List.nodup_append]
          refine ⟨⟨?_, hs_nodup, ?_⟩, hr_nodup, ?_⟩
          · split_ifs <;> simp
          · intro a ha hb
            obtain ⟨e, he, hea⟩ := List.mem_map.mp ha
            obtain ⟨e', he', heb⟩ := List.mem_map.mp hb
            obtain ⟨hedep, _⟩ := hent e he
            exact hs_fresh e' he'
              ((heb.trans (hea.symm.trans hedep)) ▸ List.mem_cons_self _ _)
          · intro a ha hb
            obtain ⟨e', he', heb⟩ := List.mem_map.mp hb
            have ha2 : a ∈ (recur (depInstallPath fs packagePath cwd dep)
                (dep :: visited)).2 := by
              rcases List.mem_append.mp ha with ha | ha
              · obtain ⟨e, he, hea⟩ := List.mem_map.mp ha
                obtain ⟨hedep, _⟩ := hent e he
                exact (hea.symm.trans hedep) ▸ hdep_sub2
              · obtain ⟨e, he, hea⟩ := List.mem_map.mp ha
                exact hea ▸ hs_mem e he
            exact hr_fresh e' he' (heb ▸ ha2)
        · intro e he
          rcases List.mem_append.mp he with he | he
          · rcases List.mem_append.mp he with he | he
            · exact (hent e he).1 ▸ hmem
            · intro hv
              exact hs_fresh e he (List.mem_cons_of_mem _ hv)
          · intro hv
            exact hr_fresh e he (hvis_sub2 e.name hv)
        · intro v hv
          exact hr_mono v (hvis_sub2 v hv)
        · intro e he
          rcases List.mem_append.mp he with he | he
          · rcases List.mem_append.mp he with he | he
            · exact hr_mono e.name ((hent e he).1 ▸ hdep_sub2)
            · exact hr_mono e.name (hs_mem e he)
          · exact hr_mem e he
        · intro e he
          rcases List.mem_append.mp he with he | he
          · rcases List.mem_append.mp he with he | he
            · exact (hent e he).2
            · exact hs_pos e he
          · exact hr_pos e he
      · rw [if_neg hex]
        obtain ⟨h1, h2, h3, h4, h5⟩ := ih (dep :: visited)
        refine ⟨h1, ?_, ?_, h4, h5⟩
        · intro e he hv
          exact h2 e he (List.mem_cons_of_mem _ hv)
        · intro v hv
          exact h3 v (List.mem_cons_of_mem _ hv)

/-- The transitive walk maintains its invariant at every fuel level. -/
theorem getDependencyTree_inv (fs : FsNode) (cwd : FsPath) :
    ∀ fuel packagePath visited,
      GdtInv visited (getDependencyTree fs cwd fuel packagePath visited) := by
  intro fuel
  induction fuel with
  | zero =>
    intro pp vis
    exact ⟨by simp [getDependencyTree], by simp [getDependencyTree],
      fun v hv => hv, by simp [getDependencyTree], by simp [getDependencyTree]⟩
  | succ f ih =>
    intro pp vis
    simp only [getDependencyTree]
    cases hread : fs.readPackageJson (pp ++ ["package.json"]) with
    | none =>
      exact ⟨by simp, by simp, fun v hv => hv, by simp, by simp⟩
    | some pkg =>
      exact gdtLoop_inv fs cwd pp (getDependencyTree fs cwd f)
        (fun pp' vis' => ih pp' vis') pkg.dependencies vis

/-- The fold `reduce((sum, item) => sum + item.size, 0)` computes the sum of sizes. -/
theorem foldl_add_size :
    ∀ (l : List SizeBreakdown) (init : Nat),
      l.foldl (fun sum item => sum + item.size) init =
        init + (l.map SizeBreakdown.size).sum := by
  intro l
  induction l with
  | nil => intro init; simp
  | cons e rest ih =>
    intro init
    simp only [List.foldl_cons, List.map_cons, List.sum_cons]
    rw [ih]
    omega

/-- C3: the transitive size breakdown counts each uniquely named module at
most once — the breakdown names are pairwise distinct even on diamond-shaped
graphs — and `totalSize` is the sum of the breakdown entry sizes. -/
theorem c3_breakdown_names_distinct_total_is_sum (fsT : FsNode) (name : String)
    (cwd : FsPath) (r : SizeMapResult)
    (h : analyzeSizeMap fsT name cwd = Except.ok r) :
    (r.breakdown.map SizeBreakdown.name).Nodup ∧
    r.totalSize = (r.breakdown.map SizeBreakdown.size).sum := by
  simp only [analyzeSizeMap] at h
  cases hfind : findPackagePath fsT name cwd with
  | none =>
    rw [hfind] at h
    simp at h
  | some pp =>
    rw [hfind] at h
    have hr := Except.ok.inj h
    subst hr
    dsimp only
    constructor
    · obtain ⟨hnodup, hfresh, _, _, _⟩ :=
        getDependencyTree_inv fsT cwd (depNameCount fsT + 1) pp [name]
      have hperm : (sortBySizeDesc (getDependencyTree fsT cwd (depNameCount fsT + 1)
          pp [name]).1).Perm
          (getDependencyTree fsT cwd (depNameCount fsT + 1) pp [name]).1 :=
        List.perm_insertionSort _ _
      rw [List.map_cons, List.nodup_cons]
      constructor
      · intro hmem
        obtain ⟨e, he, hen⟩ := List.mem_map.mp hmem
        have he' := hperm.mem_iff.mp he
        refine hfresh e he' ?_
        rw [hen]
        exact List.mem_cons_self _ _
      · exact ((hperm.map SizeBreakdown.name).nodup_iff).mpr hnodup
    · rw [foldl_add_size]
      simp

/-- C9: the first breakdown entry is the target's own footprint (its name
and filtered own size) regardless of magnitude, and the remaining entries
are in non-increasing size order. -/
theorem c9_breakdown_head_own_tail_sorted (fsT : FsNode) (name : String)
    (cwd : FsPath) (r : SizeMapResult)
    (h : analyzeSizeMap fsT name cwd = Except.ok r) :
    (∃ pp, findPackagePath fsT name cwd = some pp ∧
      r.breakdown.head? = some (SizeBreakdown.mk name (calculateJsSize fsT pp))) ∧
    List.Pairwise (fun a b => b.size ≤ a.size) r.breakdown.tail := by
  simp only [analyzeSizeMap] at h
  cases hfind : findPackagePath fsT name cwd with
  | none =>
    rw [hfind] at h
    simp at h
  | some pp =>
    rw [hfind] at h
    have hr := Except.ok.inj h
    subst hr
    dsimp only
    refine ⟨⟨pp, rfl, rfl⟩, ?_⟩
    exact List.sorted_insertionSort sizeDescOrder _

/-- C9 witness: the sorted breakdown of the concrete install tree. -/
theorem c9_witness :
    (∃ pp, findPackagePath fsTree "t" ["proj"] = some pp ∧
      ([SizeBreakdown.mk "t" 10, SizeBreakdown.mk "w" 5] :
        List SizeBreakdown).head? =
        some (SizeBreakdown.mk "t" (calculateJsSize fsTree pp))) ∧
    List.Pairwise (fun a b => b.size ≤ a.size)
      ([SizeBreakdown.mk "t" 10, SizeBreakdown.mk "w" 5] :
        List SizeBreakdown).tail :=
  c9_breakdown_head_own_tail_sorted fsTree "t" ["proj"]
    (SizeMapResult.mk "t" 15
      [SizeBreakdown.mk "t" 10, SizeBreakdown.mk "w" 5] 15)
    (by decide)

/-- C3 witness: the invariants at the concrete install tree. -/
theorem c3_witness :
    (([SizeBreakdown.mk "t" 10, SizeBreakdown.mk "w" 5].map
      SizeBreakdown.name).Nodup) ∧
    (15 : Nat) = ([SizeBreakdown.mk "t" 10, SizeBreakdown.mk "w" 5].map
      SizeBreakdown.size).sum :=
  c3_breakdown_names_distinct_total_is_sum fsTree "t" ["proj"]
    (SizeMapResult.mk "t" 15
      [SizeBreakdown.mk "t" 10, SizeBreakdown.mk "w" 5] 15)
    (by decide)

/-- C10: every breakdown entry after the first has strictly positive size
(only the head — the target's own footprint — may be zero); a zero-size
dependency is omitted from the breakdown but still marked visited and its
own dependencies are still walked.  Concretely, in `fsTree` the dependency
`z` (filtered size 0) is absent from the breakdown, present in the final
visited set, and its own dependency `w` still contributes its entry. -/
theorem c10_tail_entries_positive :
    (∀ (fsT : FsNode) (name : String) (cwd : FsPath) (r : SizeMapResult),
      analyzeSizeMap fsT name cwd = Except.ok r →
      r.breakdown.head?.map SizeBreakdown.name = some name ∧
      ∀ e ∈ r.breakdown.tail, 0 < e.size) ∧
    (analyzeSizeMap fsTree "t" ["proj"]).toOption.map SizeMapResult.breakdown =
      some [SizeBreakdown.mk "t" 10, SizeBreakdown.mk "w" 5] ∧
    (getDependencyTree fsTree ["proj"] (depNameCount fsTree + 1)
      ["proj", "node_modules", "t"] ["t"]).1 = [SizeBreakdown.mk "w" 5] ∧
    "z" ∈ (getDependencyTree fsTree ["proj"] (depNameCount fsTree + 1)
      ["proj", "node_modules", "t"] ["t"]).2 := by
  refine ⟨?_, by decide, by decide, by decide⟩
  intro fsT name cwd r h
  simp only [analyzeSizeMap] at h
  cases hfind : findPackagePath fsT name cwd with
  | none =>
    rw [hfind] at h
    simp at h
  | some pp =>
    rw [hfind] at h
    have hr := Except.ok.inj h
    subst hr
    dsimp only
    refine ⟨rfl, ?_⟩
    intro e he
    obtain ⟨_, _, _, _, hpos⟩ :=
      getDependencyTree_inv fsT cwd (depNameCount fsT + 1) pp [name]
    have hperm : (sortBySizeDesc (getDependencyTree fsT cwd (depNameCount fsT + 1)
        pp [name]).1).Perm
        (getDependencyTree fsT cwd (depNameCount fsT + 1) pp [name]).1 :=
      List.perm_insertionSort _ _
    exact hpos e (hperm.mem_iff.mp he)

/-- C10 witness: the positivity invariant applied at the concrete tree. -/
theorem c10_witness : 0 < (SizeBreakdown.mk "w" 5).size :=
  (c10_tail_entries_positive.1 fsTree "t" ["proj"]
    (SizeMapResult.mk "t" 15
      [SizeBreakdown.mk "t" 10, SizeBreakdown.mk "w" 5] 15)
    (by decide)).2 (SizeBreakdown.mk "w" 5) (by decide)

end Whyinstall
